import Mathlib

/-!
Verification of the fragment-aware span redaction engine of the
`redaction_xml` repository.

The repository contains four near-identical redaction modules
(`docx_redaction.py`, `pptx_redaction.py`, `hwpx_redaction.py`,
`xlsx_redaction.py`).  Each one joins the text fragments of a logical
unit, finds PII matches with the regex/validator registry of
`redac_rules.py`, merges the match spans with `_merge_overlaps`, and
rewrites the fragments in place with `_apply_replacements_to_nodes`.

Fragment texts are modelled as `List Char`; a fragment list is a
`List (List Char)`.  Spans are half-open `Nat × Nat` pairs on the
concatenated string, exactly as in the source.
-/

/-- Dash and hyphen characters preserved by the docx and hwpx maskers:
the Python set `KEEP = set("-‐‑‒–—―−")`
of `docx_redaction.py` line 24 and `hwpx_redaction.py` line 32. -/
def keepDashes : List Char :=
  ['-', '‐', '‑', '‒', '–', '—', '―', '−']

/-- Unicode white space as recognized by the Python `str.isspace` method
(code points with bidirectional class WS, B or S, or category Zs). -/
def pyIsSpace (c : Char) : Bool :=
  let n := c.toNat
  (9 ≤ n && n ≤ 13) || (28 ≤ n && n ≤ 32) || n == 0x85 || n == 0xA0 ||
    n == 0x1680 || (0x2000 ≤ n && n ≤ 0x200A) || n == 0x2028 || n == 0x2029 ||
    n == 0x202F || n == 0x205F || n == 0x3000

/-- Exempt character predicate of the docx and hwpx maskers:
`ch in KEEP or ch.isspace()` (`docx_redaction.py` line 90,
`hwpx_redaction.py` line 128). -/
def exemptDashWs (c : Char) : Bool := keepDashes.contains c || pyIsSpace c

/-- Exempt character predicate of the pptx and xlsx maskers:
`ch == "-"` (`pptx_redaction.py` line 85, `xlsx_redaction.py` line 80). -/
def exemptHyphen (c : Char) : Bool := c == '-'

/-- The masking character: `mask_char = (mask or "*")[0]` — first character
of the supplied mask string, `*` when the mask string is empty. -/
def maskCharOf (mask : List Char) : Char :=
  match mask with
  | [] => '*'
  | c :: _ => c

/-- Per-character replacement applied inside a span:
`ch if exempt(ch) else mask_char`. -/
def maskFun (exempt : Char → Bool) (m : Char) (c : Char) : Char :=
  if exempt c then c else m

/-- Offset accumulation of `_apply_replacements_to_nodes`: starting from a
running total `acc`, each fragment gets the half-open range
`(acc, acc + len(txt))`. -/
def computeOffsetsFrom (acc : Nat) : List (List Char) → List (Nat × Nat)
  | [] => []
  | t :: rest => (acc, acc + t.length) :: computeOffsetsFrom (acc + t.length) rest

/-- Offsets of all fragments in the concatenated string (running total 0). -/
def computeOffsets (nodes : List (List Char)) : List (Nat × Nat) :=
  computeOffsetsFrom 0 nodes

/-- Inner `while` loop of `_apply_replacements_to_nodes` for one span
`(s, e)`.  Each list element pairs a fragment text with its precomputed
offset range `(b, e2)`.  The first branch is the `ne <= s` skip
(`continue`), the second is the `ns >= e` early `break` (remaining
fragments are returned untouched), the third is the local-slice
replacement guarded by `ls < le`.  Nat subtraction truncates at zero,
matching the `max(0, ...)` clamping of the source. -/
def applySpanAux (f : Char → Char) (s e : Nat) :
    List (List Char × Nat × Nat) → List (List Char)
  | [] => []
  | (txt, b, b2) :: rest =>
    if b2 ≤ s then
      txt :: applySpanAux f s e rest
    else if e ≤ b then
      txt :: rest.map (fun q => q.1)
    else
      let ls := max b s - b
      let le2 := min b2 e - b
      (if ls < le2 then
        txt.take ls ++ ((txt.drop ls).take (le2 - ls)).map f ++ txt.drop le2
      else txt) :: applySpanAux f s e rest

/-- One span of the replacement loop.  The `while` condition also tests
`e > s`; when it fails no fragment is visited. -/
def applySpan (f : Char → Char) (s e : Nat)
    (pairs : List (List Char × Nat × Nat)) : List (List Char) :=
  if s < e then applySpanAux f s e pairs else pairs.map (fun q => q.1)

/-- Model of `_apply_replacements_to_nodes` (pptx/hwpx/xlsx variants, and
the masking part of the docx variant): compute the global offsets once,
then rewrite the fragment texts span by span.  The exempt predicate is the
per-format parameter (`exemptHyphen` for pptx/xlsx, `exemptDashWs` for
docx/hwpx). -/
def applyReplacementsToNodes (exempt : Char → Bool) (nodes : List (List Char))
    (spans : List (Nat × Nat)) (mask : List Char) : List (List Char) :=
  let m := maskCharOf mask
  let offs := computeOffsets nodes
  spans.foldl (fun cur sp => applySpan (maskFun exempt m) sp.1 sp.2 (cur.zip offs)) nodes

/-- The no-break space tested by the docx write-back. -/
def nbspChar : Char := ' '

/-- XML write-back step of the docx `_apply_replacements_to_nodes`
(lines 93–99): an empty text becomes a single space, and the
`xml:space="preserve"` attribute is set exactly when the final text starts
or ends with a space or contains a no-break space.  Returns the final text
together with whether the attribute is set. -/
def docxWriteBack (t : List Char) : List Char × Bool :=
  let t2 := if t = [] then [' '] else t
  (t2, t2.head? == some ' ' || t2.getLast? == some ' ' || t2.contains nbspChar)

/-- The docx `_apply_replacements_to_nodes`: masking followed by the XML
write-back of every fragment. -/
def docxApplyReplacementsToNodes (nodes : List (List Char))
    (spans : List (Nat × Nat)) (mask : List Char) : List (List Char × Bool) :=
  (applyReplacementsToNodes exemptDashWs nodes spans mask).map docxWriteBack

/-- Total length of the fragments before fragment `i`: the global offset at
which fragment `i` starts. -/
def offsetBefore (nodes : List (List Char)) (i : Nat) : Nat :=
  ((nodes.take i).map List.length).sum

/-- A global position is covered by some span of the list. -/
def coveredB (spans : List (Nat × Nat)) (p : Nat) : Bool :=
  spans.any (fun sp => sp.1 ≤ p && p < sp.2)

section MaskerLemmas

theorem applySpanAux_map_length (f : Char → Char) (s e : Nat) :
    ∀ l : List (List Char × Nat × Nat),
      (applySpanAux f s e l).map List.length = l.map (fun q => q.1.length)
  | [] => rfl
  | (txt, b, b2) :: rest => by
    unfold applySpanAux
    split
    · simp [applySpanAux_map_length f s e rest]
    · split
      · simp [Function.comp]
      · simp only [List.map_cons, applySpanAux_map_length f s e rest]
        congr 1
        split
        · simp only [List.length_append, List.length_take, List.length_map,
            List.length_drop]
          omega
        · rfl

theorem applySpan_map_length (f : Char → Char) (s e : Nat)
    (l : List (List Char × Nat × Nat)) :
    (applySpan f s e l).map List.length = l.map (fun q => q.1.length) := by
  unfold applySpan
  split
  · exact applySpanAux_map_length f s e l
  · simp [Function.comp]

theorem map_fst_zip_offsets (cur : List (List Char)) (offs : List (Nat × Nat))
    (h : cur.length ≤ offs.length) :
    (cur.zip offs).map (fun q => q.1.length) = cur.map List.length := by
  induction cur generalizing offs with
  | nil => rfl
  | cons t rest ih =>
    cases offs with
    | nil => simp at h
    | cons o orest =>
      simp only [List.zip_cons_cons, List.map_cons]
      rw [ih orest (by simpa using h)]

theorem length_computeOffsetsFrom (acc : Nat) (nodes : List (List Char)) :
    (computeOffsetsFrom acc nodes).length = nodes.length := by
  induction nodes generalizing acc with
  | nil => rfl
  | cons t rest ih => simp [computeOffsetsFrom, ih]

theorem foldl_applySpan_map_length (f : Char → Char) (offs : List (Nat × Nat)) :
    ∀ (spans : List (Nat × Nat)) (cur : List (List Char)),
      cur.length ≤ offs.length →
      ((spans.foldl (fun c sp => applySpan f sp.1 sp.2 (c.zip offs)) cur).map
          List.length)
        = cur.map List.length
  | [], cur, _ => rfl
  | sp :: rest, cur, h => by
    simp only [List.foldl_cons]
    have h1 : (applySpan f sp.1 sp.2 (cur.zip offs)).map List.length
        = cur.map List.length := by
      rw [applySpan_map_length, map_fst_zip_offsets _ _ h]
    have h2 : (applySpan f sp.1 sp.2 (cur.zip offs)).length = cur.length := by
      have := congrArg List.length h1
      simpa using this
    rw [foldl_applySpan_map_length f offs rest _ (by rw [h2]; exact h), h1]

theorem applyReplacementsToNodes_map_length (exempt : Char → Bool)
    (nodes : List (List Char)) (spans : List (Nat × Nat)) (mask : List Char) :
    (applyReplacementsToNodes exempt nodes spans mask).map List.length
      = nodes.map List.length := by
  unfold applyReplacementsToNodes
  exact foldl_applySpan_map_length _ _ spans nodes
    (le_of_eq (length_computeOffsetsFrom 0 nodes).symm)

theorem getD_maskSlice (f : Char → Char) (txt : List Char) (ls le2 j : Nat) (d : Char)
    (h : ls ≤ le2) :
    ((txt.take ls ++ ((txt.drop ls).take (le2 - ls)).map f ++ txt.drop le2).getD j d)
    = if ls ≤ j ∧ j < le2 ∧ j < txt.length then f (txt.getD j d) else txt.getD j d := by
  rw [List.append_assoc]
  simp only [List.getD_eq_getElem?_getD]
  rcases Nat.lt_or_ge j (txt.take ls).length with h1 | h1
  · have hls : j < ls ∧ j < txt.length := by
      simpa [List.length_take] using h1
    rw [List.getElem?_append_left h1, List.getElem?_take, if_pos hls.1,
      if_neg (by omega)]
  · rw [List.getElem?_append_right h1]
    simp only [List.length_take] at h1 ⊢
    rw [List.getElem?_append]
    simp only [List.length_map, List.length_take, List.length_drop]
    split
    · next hk =>
      have hln : min ls txt.length = ls := by omega
      rw [List.getElem?_map, List.getElem?_take, if_pos (by omega),
        List.getElem?_drop]
      have hidx : ls + (j - min ls txt.length) = j := by omega
      rw [hidx, if_pos (by omega), List.getElem?_eq_getElem (l := txt) (by omega)]
      simp [List.getD_eq_getElem?_getD, List.getElem?_eq_getElem (l := txt) (show j < txt.length by omega)]
    · next hk =>
      rw [List.getElem?_drop]
      rcases Nat.lt_or_ge j txt.length with hjn | hjn
      · have hle2 : le2 ≤ txt.length := by omega
        have hidx : le2 + (j - min ls txt.length - min (le2 - ls) (txt.length - ls)) = j := by
          omega
        rw [hidx, if_neg (by omega)]
      · have hidx : txt.length ≤ le2 + (j - min ls txt.length - min (le2 - ls) (txt.length - ls)) := by
          omega
        rw [List.getElem?_eq_none hidx, List.getElem?_eq_none hjn, if_neg (by omega)]

theorem offsetBefore_zero (nodes : List (List Char)) : offsetBefore nodes 0 = 0 := by
  simp [offsetBefore]

theorem offsetBefore_cons_succ (t : List Char) (rest : List (List Char)) (i : Nat) :
    offsetBefore (t :: rest) (i + 1) = t.length + offsetBefore rest i := by
  simp [offsetBefore, List.take_succ_cons]

theorem zip_computeOffsets_map_fst :
    ∀ (nodes : List (List Char)) (acc : Nat),
      (nodes.zip (computeOffsetsFrom acc nodes)).map (fun q => q.1) = nodes
  | [], _ => rfl
  | t :: rest, acc => by
    simp only [computeOffsetsFrom, List.zip_cons_cons, List.map_cons]
    rw [zip_computeOffsets_map_fst rest (acc + t.length)]

/-- Fragments zipped with their offset ranges, as consumed by the span loop. -/
def zipOffs (acc : Nat) (nodes : List (List Char)) : List (List Char × Nat × Nat) :=
  nodes.zip (computeOffsetsFrom acc nodes)

theorem zipOffs_nil (acc : Nat) : zipOffs acc [] = [] := rfl

theorem zipOffs_cons (acc : Nat) (t : List Char) (rest : List (List Char)) :
    zipOffs acc (t :: rest)
      = (t, acc, acc + t.length) :: zipOffs (acc + t.length) rest := rfl

theorem zipOffs_map_fst (acc : Nat) (nodes : List (List Char)) :
    (zipOffs acc nodes).map (fun q => q.1) = nodes :=
  zip_computeOffsets_map_fst nodes acc

theorem applySpanAux_getD (f : Char → Char) (s e : Nat) :
    ∀ (nodes : List (List Char)) (acc i j : Nat) (d : Char),
      i < nodes.length → j < (nodes.getD i []).length →
      (((applySpanAux f s e (zipOffs acc nodes)).getD i []).getD j d)
      = if s ≤ acc + offsetBefore nodes i + j ∧ acc + offsetBefore nodes i + j < e
        then f ((nodes.getD i []).getD j d) else (nodes.getD i []).getD j d
  | [], acc, i, j, d, hi, hj => by simp at hi
  | txt :: rest, acc, i, j, d, hi, hj => by
    rw [zipOffs_cons]
    simp only [applySpanAux]
    by_cases hskip : acc + txt.length ≤ s
    · rw [if_pos hskip]
      cases i with
      | zero =>
        simp only [List.getD_cons_zero, offsetBefore_zero] at hj ⊢
        rw [if_neg (by omega)]
      | succ i =>
        simp only [List.getD_cons_succ, offsetBefore_cons_succ] at hj ⊢
        rw [applySpanAux_getD f s e rest (acc + txt.length) i j d
          (by simpa using hi) hj]
        have harith : acc + txt.length + offsetBefore rest i + j
            = acc + (txt.length + offsetBefore rest i) + j := by omega
        rw [harith]
    · rw [if_neg hskip]
      by_cases hbreak : e ≤ acc
      · rw [if_pos hbreak]
        cases i with
        | zero =>
          simp only [List.getD_cons_zero, offsetBefore_zero] at hj ⊢
          rw [if_neg (by omega)]
        | succ i =>
          simp only [List.getD_cons_succ, offsetBefore_cons_succ,
            zipOffs_map_fst] at hj ⊢
          rw [if_neg (by omega)]
      · rw [if_neg hbreak]
        cases i with
        | zero =>
          simp only [List.getD_cons_zero, offsetBefore_zero] at hj ⊢
          by_cases hguard : max acc s - acc < min (acc + txt.length) e - acc
          · rw [if_pos hguard, getD_maskSlice f txt _ _ j d (by omega)]
            by_cases hc : s ≤ acc + 0 + j ∧ acc + 0 + j < e
            · rw [if_pos (by omega), if_pos hc]
            · rw [if_neg (by omega), if_neg hc]
          · rw [if_neg hguard, if_neg (by omega)]
        | succ i =>
          simp only [List.getD_cons_succ, offsetBefore_cons_succ] at hj ⊢
          rw [applySpanAux_getD f s e rest (acc + txt.length) i j d
            (by simpa using hi) hj]
          have harith : acc + txt.length + offsetBefore rest i + j
              = acc + (txt.length + offsetBefore rest i) + j := by omega
          rw [harith]

theorem applySpan_getD (f : Char → Char) (s e : Nat) (nodes : List (List Char))
    (acc i j : Nat) (d : Char) (hi : i < nodes.length)
    (hj : j < (nodes.getD i []).length) :
    (((applySpan f s e (zipOffs acc nodes)).getD i []).getD j d)
    = if s ≤ acc + offsetBefore nodes i + j ∧ acc + offsetBefore nodes i + j < e
      then f ((nodes.getD i []).getD j d) else (nodes.getD i []).getD j d := by
  unfold applySpan
  by_cases hse : s < e
  · rw [if_pos hse]
    exact applySpanAux_getD f s e nodes acc i j d hi hj
  · rw [if_neg hse, zipOffs_map_fst, if_neg (by omega)]

theorem computeOffsetsFrom_congr :
    ∀ (xs ys : List (List Char)) (acc : Nat),
      xs.map List.length = ys.map List.length →
      computeOffsetsFrom acc xs = computeOffsetsFrom acc ys
  | [], [], _, _ => rfl
  | [], _ :: _, _, h => by simp at h
  | _ :: _, [], _, h => by simp at h
  | x :: xs, y :: ys, acc, h => by
    simp only [List.map_cons, List.cons.injEq] at h
    simp only [computeOffsetsFrom, h.1]
    rw [computeOffsetsFrom_congr xs ys (acc + y.length) h.2]

theorem offsetBefore_congr (xs ys : List (List Char)) (i : Nat)
    (h : xs.map List.length = ys.map List.length) :
    offsetBefore xs i = offsetBefore ys i := by
  unfold offsetBefore
  rw [List.map_take, List.map_take, h]

theorem getD_length_congr (xs ys : List (List Char)) (i : Nat)
    (h : xs.map List.length = ys.map List.length) :
    (xs.getD i []).length = (ys.getD i []).length := by
  have hlen : xs.length = ys.length := by
    have := congrArg List.length h
    simpa using this
  rcases Nat.lt_or_ge i xs.length with hi | hi
  · have h1 : (xs.getD i []).length = (xs.map List.length).getD i 0 := by
      rw [List.getD_eq_getElem _ _ hi,
        List.getD_eq_getElem _ _ (by simpa using hi), List.getElem_map]
    have h2 : (ys.getD i []).length = (ys.map List.length).getD i 0 := by
      rw [List.getD_eq_getElem _ _ (hlen ▸ hi),
        List.getD_eq_getElem _ _ (by simpa using hlen ▸ hi), List.getElem_map]
    rw [h1, h2, h]
  · rw [List.getD_eq_default _ _ hi, List.getD_eq_default _ _ (hlen ▸ hi)]

theorem foldl_applySpan_getD (f : Char → Char) (hf : ∀ c, f (f c) = f c)
    (nodes0 : List (List Char)) :
    ∀ (spans : List (Nat × Nat)) (cur : List (List Char)),
      cur.map List.length = nodes0.map List.length →
      ∀ (i j : Nat) (d : Char), i < cur.length → j < (cur.getD i []).length →
      (((spans.foldl
            (fun c sp => applySpan f sp.1 sp.2 (c.zip (computeOffsets nodes0)))
            cur).getD i []).getD j d)
      = if coveredB spans (offsetBefore cur i + j)
        then f ((cur.getD i []).getD j d) else (cur.getD i []).getD j d
  | [], cur, hmap, i, j, d, hi, hj => by
    simp [coveredB]
  | sp :: rest, cur, hmap, i, j, d, hi, hj => by
    simp only [List.foldl_cons]
    have hoffs : cur.zip (computeOffsets nodes0) = zipOffs 0 cur := by
      unfold zipOffs computeOffsets
      rw [computeOffsetsFrom_congr nodes0 cur 0 hmap.symm]
    set cur' := applySpan f sp.1 sp.2 (cur.zip (computeOffsets nodes0)) with hcur'
    have hmap' : cur'.map List.length = cur.map List.length := by
      rw [hcur', applySpan_map_length, map_fst_zip_offsets]
      rw [computeOffsets, length_computeOffsetsFrom]
      have := congrArg List.length hmap
      simp only [List.length_map] at this
      omega
    have hstep : ∀ (j2 : Nat) (d2 : Char), j2 < (cur.getD i []).length →
        ((cur'.getD i []).getD j2 d2)
        = if sp.1 ≤ offsetBefore cur i + j2 ∧ offsetBefore cur i + j2 < sp.2
          then f ((cur.getD i []).getD j2 d2) else (cur.getD i []).getD j2 d2 := by
      intro j2 d2 hj2
      rw [hcur', hoffs]
      have := applySpan_getD f sp.1 sp.2 cur 0 i j2 d2 hi hj2
      simpa using this
    have hrec := foldl_applySpan_getD f hf nodes0 rest cur'
      (hmap'.trans hmap) i j d
      (by
        have := congrArg List.length hmap'
        simp only [List.length_map] at this
        omega)
      (by rw [getD_length_congr cur' cur i hmap']; exact hj)
    rw [hrec, offsetBefore_congr cur' cur i hmap']
    rw [hstep j d hj]
    have hcons : coveredB (sp :: rest) (offsetBefore cur i + j)
        = ((decide (sp.1 ≤ offsetBefore cur i + j)
            && decide (offsetBefore cur i + j < sp.2))
          || coveredB rest (offsetBefore cur i + j)) := by
      simp [coveredB]
    by_cases h1 : sp.1 ≤ offsetBefore cur i + j ∧ offsetBefore cur i + j < sp.2
    · have h1t : (decide (sp.1 ≤ offsetBefore cur i + j)
          && decide (offsetBefore cur i + j < sp.2)) = true := by
        simp [h1.1, h1.2]
      rw [if_pos h1, hcons, h1t, Bool.true_or]
      by_cases h2 : coveredB rest (offsetBefore cur i + j) = true
      · simp [h2, hf]
      · simp only [Bool.not_eq_true] at h2
        simp [h2]
    · have h1b : (decide (sp.1 ≤ offsetBefore cur i + j)
          && decide (offsetBefore cur i + j < sp.2)) = false := by
        by_cases ha : sp.1 ≤ offsetBefore cur i + j
        · have hb : ¬ offsetBefore cur i + j < sp.2 := fun hb => h1 ⟨ha, hb⟩
          simp [ha, hb]
        · simp [ha]
      rw [if_neg h1, hcons, h1b, Bool.false_or]

theorem maskFun_idem (exempt : Char → Bool) (m : Char) :
    ∀ c, maskFun exempt m (maskFun exempt m c) = maskFun exempt m c := by
  intro c
  by_cases h : exempt c <;> by_cases hm : exempt m <;> simp [maskFun, h, hm]

/-- Per-position behaviour of the masker: a character at global position
`offsetBefore nodes i + j` is rewritten through `maskFun` exactly when some
span covers that position, and is untouched otherwise. -/
theorem applyReplacementsToNodes_getD (exempt : Char → Bool)
    (nodes : List (List Char)) (spans : List (Nat × Nat)) (mask : List Char)
    (i j : Nat) (d : Char) (hi : i < nodes.length)
    (hj : j < (nodes.getD i []).length) :
    (((applyReplacementsToNodes exempt nodes spans mask).getD i []).getD j d)
    = if coveredB spans (offsetBefore nodes i + j)
      then maskFun exempt (maskCharOf mask) ((nodes.getD i []).getD j d)
      else (nodes.getD i []).getD j d := by
  simp only [applyReplacementsToNodes]
  exact foldl_applySpan_getD (maskFun exempt (maskCharOf mask))
    (maskFun_idem exempt (maskCharOf mask)) nodes spans nodes rfl i j d hi hj

theorem list_char_ext (a b : List Char) (hlen : a.length = b.length)
    (h : ∀ j, j < a.length → a.getD j ' ' = b.getD j ' ') : a = b := by
  apply List.ext_getElem hlen
  intro n h1 h2
  have hh := h n h1
  rwa [List.getD_eq_getElem _ _ h1, List.getD_eq_getElem _ _ h2] at hh

theorem listlist_ext (xs ys : List (List Char))
    (hmap : xs.map List.length = ys.map List.length)
    (h : ∀ i j, i < xs.length → j < (xs.getD i []).length →
      (xs.getD i []).getD j ' ' = (ys.getD i []).getD j ' ') : xs = ys := by
  have hlen : xs.length = ys.length := by simpa using congrArg List.length hmap
  apply List.ext_getElem hlen
  intro n h1 h2
  have hinner : (xs.getD n []).length = (ys.getD n []).length :=
    getD_length_congr xs ys n hmap
  have hgoal : xs.getD n [] = ys.getD n [] :=
    list_char_ext _ _ hinner (fun j hj => h n j h1 hj)
  rwa [List.getD_eq_getElem _ _ h1, List.getD_eq_getElem _ _ h2] at hgoal

end MaskerLemmas

/-- C1: for every fragment list, (derived) offset map and span list, the
masker rewrites the fragments so that every character position covered by
some span holds the mask character unless the character there is exempt
(exempt characters are kept), and every position outside all spans is
unchanged; in particular on fragments `["ABC", "123-4567"]` with the single
span `(3, 11)`, hyphen exempt and mask `*`, the results are
`["ABC", "***-****"]` (the span is applied to the tail of one fragment and
the head of the next). -/
theorem C1_masker_per_position :
    (∀ (exempt : Char → Bool) (nodes : List (List Char))
        (spans : List (Nat × Nat)) (mask : List Char) (i j : Nat) (d : Char),
      i < nodes.length → j < (nodes.getD i []).length →
      (((applyReplacementsToNodes exempt nodes spans mask).getD i []).getD j d)
      = if coveredB spans (offsetBefore nodes i + j)
        then maskFun exempt (maskCharOf mask) ((nodes.getD i []).getD j d)
        else (nodes.getD i []).getD j d)
    ∧ applyReplacementsToNodes exemptHyphen ["ABC".toList, "123-4567".toList]
        [(3, 11)] ['*'] = ["ABC".toList, "***-****".toList] :=
  ⟨fun exempt nodes spans mask i j d hi hj =>
    applyReplacementsToNodes_getD exempt nodes spans mask i j d hi hj,
   by decide⟩

/-- Witness for C1: the per-position characterization applied to the
concrete cross-fragment example at fragment 1, position 0 (global
position 3, covered by the span, character 1 masked to the mask char). -/
theorem C1_masker_per_position_witness :
    (((applyReplacementsToNodes exemptHyphen ["ABC".toList, "123-4567".toList]
        [(3, 11)] ['*']).getD 1 []).getD 0 ' ')
    = if coveredB [(3, 11)]
          (offsetBefore ["ABC".toList, "123-4567".toList] 1 + 0)
      then maskFun exemptHyphen (maskCharOf ['*'])
        ((["ABC".toList, "123-4567".toList].getD 1 []).getD 0 ' ')
      else (["ABC".toList, "123-4567".toList].getD 1 []).getD 0 ' ' :=
  C1_masker_per_position.1 exemptHyphen _ _ _ 1 0 ' ' (by decide) (by decide)

/-- C3: the masker never changes any individual fragment length, hence the
total length over all fragments is also unchanged. -/
theorem C3_length_invariance :
    ∀ (exempt : Char → Bool) (nodes : List (List Char))
      (spans : List (Nat × Nat)) (mask : List Char),
      ((applyReplacementsToNodes exempt nodes spans mask).map List.length
        = nodes.map List.length)
      ∧ (((applyReplacementsToNodes exempt nodes spans mask).map
            List.length).sum
        = (nodes.map List.length).sum) :=
  fun exempt nodes spans mask =>
    ⟨applyReplacementsToNodes_map_length exempt nodes spans mask,
     by rw [applyReplacementsToNodes_map_length exempt nodes spans mask]⟩

/-- C10: the masker is idempotent as a text transformation: a second run
with the same spans and mask changes nothing, because the per-character
function maps exempt characters to themselves and everything else to the
mask character, which is itself mapped to the mask character. -/
theorem C10_masker_idempotent :
    ∀ (exempt : Char → Bool) (nodes : List (List Char))
      (spans : List (Nat × Nat)) (mask : List Char),
      applyReplacementsToNodes exempt
          (applyReplacementsToNodes exempt nodes spans mask) spans mask
        = applyReplacementsToNodes exempt nodes spans mask := by
  intro exempt nodes spans mask
  set r := applyReplacementsToNodes exempt nodes spans mask with hr
  have hmap : r.map List.length = nodes.map List.length :=
    applyReplacementsToNodes_map_length exempt nodes spans mask
  have hmap2 : (applyReplacementsToNodes exempt r spans mask).map List.length
      = r.map List.length :=
    applyReplacementsToNodes_map_length exempt r spans mask
  apply listlist_ext _ _ hmap2
  intro i j hi hj
  have hlen2 : (applyReplacementsToNodes exempt r spans mask).length
      = r.length := by
    simpa using congrArg List.length hmap2
  have hir : i < r.length := by
    rw [← hlen2]
    simpa using hi
  have hjr : j < (r.getD i []).length := by
    rw [← getD_length_congr _ _ i hmap2]
    exact hj
  have hin : i < nodes.length := by
    have : r.length = nodes.length := by simpa using congrArg List.length hmap
    omega
  have hjn : j < (nodes.getD i []).length := by
    rw [← getD_length_congr _ _ i hmap]
    exact hjr
  rw [applyReplacementsToNodes_getD exempt r spans mask i j ' ' hir hjr]
  rw [applyReplacementsToNodes_getD exempt nodes spans mask i j ' ' hin hjn]
  rw [offsetBefore_congr r nodes i hmap]
  by_cases hc : coveredB spans (offsetBefore nodes i + j) = true
  · rw [if_pos hc, if_pos hc, maskFun_idem]
  · rw [if_neg hc, if_neg hc]

/-- C8: after the docx masker returns, every node written back has
non-empty text; an empty fragment is written back as a single space (its
stored length grows from 0 to 1); and a node gets the xml space preserve
attribute exactly when its final text starts or ends with a space or
contains a no-break space. -/
theorem C8_docx_writeback :
    ∀ (nodes : List (List Char)) (spans : List (Nat × Nat)) (mask : List Char),
      ((docxApplyReplacementsToNodes nodes spans mask).length = nodes.length)
      ∧ (∀ pr ∈ docxApplyReplacementsToNodes nodes spans mask,
          pr.1 ≠ []
          ∧ (pr.2 = true ↔
              (pr.1.head? = some ' ' ∨ pr.1.getLast? = some ' '
                ∨ nbspChar ∈ pr.1)))
      ∧ (∀ i, i < nodes.length → (nodes.getD i []).length = 0 →
          ((docxApplyReplacementsToNodes nodes spans mask).getD i ([], false)).1
            = [' ']) := by
  intro nodes spans mask
  refine ⟨?_, ?_, ?_⟩
  · unfold docxApplyReplacementsToNodes
    have := applyReplacementsToNodes_map_length exemptDashWs nodes spans mask
    have hlen := congrArg List.length this
    simpa using hlen
  · intro pr hpr
    unfold docxApplyReplacementsToNodes at hpr
    rcases List.mem_map.mp hpr with ⟨t, _ht, rfl⟩
    constructor
    · unfold docxWriteBack
      by_cases h : t = [] <;> simp [h]
    · unfold docxWriteBack
      simp only [Bool.or_eq_true, beq_iff_eq, List.elem_iff]
      tauto
  · intro i hi hlen0
    have hmap := applyReplacementsToNodes_map_length exemptDashWs nodes spans mask
    have hmasked : (applyReplacementsToNodes exemptDashWs nodes spans mask).getD
        i [] = [] := by
      have hl : ((applyReplacementsToNodes exemptDashWs nodes spans mask).getD
          i []).length = 0 := by
        rw [getD_length_congr _ _ i hmap]
        exact hlen0
      exact List.length_eq_zero.mp hl
    have hilen : i < (applyReplacementsToNodes exemptDashWs nodes spans
        mask).length := by
      have := congrArg List.length hmap
      simp only [List.length_map] at this
      omega
    unfold docxApplyReplacementsToNodes
    rw [List.getD_eq_getElem _ _ (by simpa using hilen), List.getElem_map,
      ← List.getD_eq_getElem _ [] hilen, hmasked]
    rfl

/-- Witness for C8: the empty first fragment of a concrete unit is written
back as a single space. -/
theorem C8_docx_writeback_witness :
    ((docxApplyReplacementsToNodes [([] : List Char), "a ".toList]
        [(0, 2)] ['*']).getD 0 ([], false)).1 = [' '] :=
  (C8_docx_writeback [([] : List Char), "a ".toList] [(0, 2)] ['*']).2.2 0
    (by decide) (by decide)

/-! ## The span merger -/

/-- Lexicographic order on pairs, as used by the Python list sort in
`_merge_overlaps` (`spans.sort()` and `sorted(spans)` sort tuples
lexicographically). -/
def spanLe (a b : Nat × Nat) : Prop :=
  a.1 < b.1 ∨ (a.1 = b.1 ∧ a.2 ≤ b.2)

instance : DecidableRel spanLe := fun a b => by
  unfold spanLe
  exact inferInstance

instance : IsTotal (Nat × Nat) spanLe :=
  ⟨by
    intro a b
    unfold spanLe
    omega⟩

instance : IsTrans (Nat × Nat) spanLe :=
  ⟨by
    intro a b c
    unfold spanLe
    omega⟩

instance : IsAntisymm (Nat × Nat) spanLe :=
  ⟨by
    intro a b h1 h2
    unfold spanLe at h1 h2
    have ha : a.1 = b.1 ∧ a.2 = b.2 := by omega
    exact Prod.ext ha.1 ha.2⟩

/-- Sorting step of `_merge_overlaps`: the Python stable sort on tuples
produces the unique `spanLe`-sorted permutation, modelled by insertion
sort under `spanLe`. -/
def sortSpans (spans : List (Nat × Nat)) : List (Nat × Nat) :=
  List.insertionSort spanLe spans

/-- Sweep of `_merge_overlaps`: extend the current interval whenever the
next span starts at or before its end (overlap or exact touch), otherwise
close it and open a new one. -/
def mergeAux (cur : Nat × Nat) : List (Nat × Nat) → List (Nat × Nat)
  | [] => [cur]
  | (s, e) :: rest =>
    if s ≤ cur.2 then mergeAux (cur.1, max cur.2 e) rest
    else cur :: mergeAux (s, e) rest

/-- Model of `_merge_overlaps`: sort, then sweep; empty input gives empty
output. -/
def mergeOverlaps (spans : List (Nat × Nat)) : List (Nat × Nat) :=
  match sortSpans spans with
  | [] => []
  | first :: rest => mergeAux first rest

section MergeLemmas

theorem mergeAux_head : ∀ (l : List (Nat × Nat)) (cur : Nat × Nat),
    ∃ b tl, mergeAux cur l = (cur.1, b) :: tl
  | [], cur => ⟨cur.2, [], rfl⟩
  | (s, e) :: rest, cur => by
    unfold mergeAux
    by_cases h : s ≤ cur.2
    · rw [if_pos h]
      exact mergeAux_head rest (cur.1, max cur.2 e)
    · rw [if_neg h]
      exact ⟨cur.2, mergeAux (s, e) rest, rfl⟩

theorem mergeAux_chain :
    ∀ (l : List (Nat × Nat)) (cur : Nat × Nat),
      List.Pairwise (fun a b : Nat × Nat => a.1 ≤ b.1) (cur :: l) →
      List.Chain' (fun a b : Nat × Nat => a.2 < b.1) (mergeAux cur l)
  | [], cur, _ => by simp [mergeAux]
  | (s, e) :: rest, cur, hp => by
    rcases List.pairwise_cons.mp hp with ⟨hhead, htail⟩
    rcases List.pairwise_cons.mp htail with ⟨hhead2, htail2⟩
    unfold mergeAux
    by_cases h : s ≤ cur.2
    · rw [if_pos h]
      apply mergeAux_chain rest (cur.1, max cur.2 e)
      exact List.pairwise_cons.mpr
        ⟨fun x hx => le_trans (hhead (s, e) (List.mem_cons_self _ _)) (hhead2 x hx),
         htail2⟩
    · rw [if_neg h]
      apply List.chain'_cons'.mpr
      refine ⟨?_, mergeAux_chain rest (s, e) htail⟩
      intro y hy
      rcases mergeAux_head rest (s, e) with ⟨b, tl, heq⟩
      rw [heq] at hy
      simp only [List.head?_cons, Option.mem_def, Option.some.injEq] at hy
      rw [← hy]
      omega

theorem mergeAux_wf :
    ∀ (l : List (Nat × Nat)) (cur : Nat × Nat),
      cur.1 ≤ cur.2 → (∀ x ∈ l, x.1 ≤ x.2) →
      ∀ y ∈ mergeAux cur l, y.1 ≤ y.2
  | [], cur, hcur, _, y, hy => by
    simp only [mergeAux, List.mem_singleton] at hy
    rw [hy]; exact hcur
  | (s, e) :: rest, cur, hcur, hl, y, hy => by
    unfold mergeAux at hy
    by_cases h : s ≤ cur.2
    · rw [if_pos h] at hy
      exact mergeAux_wf rest (cur.1, max cur.2 e)
        (by simp; omega) (fun x hx => hl x (List.mem_cons_of_mem _ hx)) y hy
    · rw [if_neg h] at hy
      rcases List.mem_cons.mp hy with hy | hy
      · rw [hy]; exact hcur
      · exact mergeAux_wf rest (s, e)
          (hl (s, e) (List.mem_cons_self _ _))
          (fun x hx => hl x (List.mem_cons_of_mem _ hx)) y hy

theorem coveredB_cons (x : Nat × Nat) (l : List (Nat × Nat)) (p : Nat) :
    coveredB (x :: l) p
      = ((decide (x.1 ≤ p) && decide (p < x.2)) || coveredB l p) := by
  simp [coveredB]

theorem mergeAux_coveredB :
    ∀ (l : List (Nat × Nat)) (cur : Nat × Nat) (p : Nat),
      List.Pairwise (fun a b : Nat × Nat => a.1 ≤ b.1) (cur :: l) →
      coveredB (mergeAux cur l) p
        = ((decide (cur.1 ≤ p) && decide (p < cur.2)) || coveredB l p)
  | [], cur, p, _ => by
    simp [mergeAux, coveredB]
  | (s, e) :: rest, cur, p, hp => by
    rcases List.pairwise_cons.mp hp with ⟨hhead, htail⟩
    rcases List.pairwise_cons.mp htail with ⟨hhead2, htail2⟩
    have hcs : cur.1 ≤ s := hhead (s, e) (List.mem_cons_self _ _)
    unfold mergeAux
    by_cases h : s ≤ cur.2
    · rw [if_pos h]
      rw [mergeAux_coveredB rest (cur.1, max cur.2 e) p
        (List.pairwise_cons.mpr
          ⟨fun x hx => le_trans hcs (hhead2 x hx), htail2⟩)]
      rw [coveredB_cons]
      cases hcb : coveredB rest p
      · rw [Bool.eq_iff_iff]
        simp only [hcb, Bool.or_false, Bool.and_eq_true, Bool.or_eq_true,
          decide_eq_true_eq, lt_max_iff]
        omega
      · simp [hcb]
    · rw [if_neg h]
      rw [coveredB_cons, coveredB_cons,
        mergeAux_coveredB rest (s, e) p htail]

theorem chain'_sep_rel_all :
    ∀ (l : List (Nat × Nat)) (a : Nat × Nat),
      (∀ y ∈ l, y.1 ≤ y.2) →
      List.Chain' (fun x y : Nat × Nat => x.2 < y.1) (a :: l) →
      ∀ b ∈ l, a.2 < b.1
  | [], _, _, _, b, hb => by simp at hb
  | c :: l', a, hwf, hch, b, hb => by
    rcases List.chain'_cons'.mp hch with ⟨hrel, hch'⟩
    have hac : a.2 < c.1 := hrel c rfl
    rcases List.mem_cons.mp hb with hb | hb
    · rw [hb]; exact hac
    · have hcb : c.2 < b.1 :=
        chain'_sep_rel_all l' c (fun y hy => hwf y (List.mem_cons_of_mem _ hy))
          hch' b hb
      have hcwf : c.1 ≤ c.2 := hwf c (List.mem_cons_self _ _)
      omega

theorem chain'_sep_pairwise :
    ∀ (l : List (Nat × Nat)),
      (∀ y ∈ l, y.1 ≤ y.2) →
      List.Chain' (fun x y : Nat × Nat => x.2 < y.1) l →
      List.Pairwise (fun x y : Nat × Nat => x.2 < y.1) l
  | [], _, _ => List.Pairwise.nil
  | a :: l, hwf, hch => by
    rcases List.chain'_cons'.mp hch with ⟨_, hch'⟩
    exact List.pairwise_cons.mpr
      ⟨chain'_sep_rel_all l a
        (fun y hy => hwf y (List.mem_cons_of_mem _ hy)) hch,
       chain'_sep_pairwise l
        (fun y hy => hwf y (List.mem_cons_of_mem _ hy)) hch'⟩

theorem sortSpans_perm (spans : List (Nat × Nat)) :
    (sortSpans spans).Perm spans :=
  List.perm_insertionSort spanLe spans

theorem sortSpans_sorted (spans : List (Nat × Nat)) :
    List.Sorted spanLe (sortSpans spans) :=
  List.sorted_insertionSort spanLe spans

theorem sortSpans_starts (spans : List (Nat × Nat)) :
    List.Pairwise (fun a b : Nat × Nat => a.1 ≤ b.1) (sortSpans spans) := by
  apply List.Pairwise.imp _ (sortSpans_sorted spans)
  intro a b h
  unfold spanLe at h
  omega

theorem coveredB_perm (l l' : List (Nat × Nat)) (hp : l.Perm l') (p : Nat) :
    coveredB l p = coveredB l' p := by
  rw [Bool.eq_iff_iff]
  simp only [coveredB, List.any_eq_true]
  constructor
  · rintro ⟨x, hx, hpx⟩
    exact ⟨x, hp.mem_iff.mp hx, hpx⟩
  · rintro ⟨x, hx, hpx⟩
    exact ⟨x, hp.mem_iff.mpr hx, hpx⟩

theorem mergeOverlaps_wf (spans : List (Nat × Nat))
    (h : ∀ sp ∈ spans, sp.1 ≤ sp.2) :
    ∀ sp ∈ mergeOverlaps spans, sp.1 ≤ sp.2 := by
  unfold mergeOverlaps
  have hall : ∀ sp ∈ sortSpans spans, sp.1 ≤ sp.2 := by
    intro sp hsp
    exact h sp ((sortSpans_perm spans).mem_iff.mp hsp)
  cases hsort : sortSpans spans with
  | nil => simp
  | cons first rest =>
    rw [hsort] at hall
    exact mergeAux_wf rest first (hall first (List.mem_cons_self _ _))
      (fun x hx => hall x (List.mem_cons_of_mem _ hx))

theorem mergeOverlaps_chain (spans : List (Nat × Nat)) :
    List.Chain' (fun a b : Nat × Nat => a.2 < b.1) (mergeOverlaps spans) := by
  unfold mergeOverlaps
  have hstarts := sortSpans_starts spans
  cases hsort : sortSpans spans with
  | nil => simp
  | cons first rest =>
    rw [hsort] at hstarts
    exact mergeAux_chain rest first hstarts

theorem mergeOverlaps_coveredB (spans : List (Nat × Nat)) (p : Nat) :
    coveredB (mergeOverlaps spans) p = coveredB spans p := by
  unfold mergeOverlaps
  have hstarts := sortSpans_starts spans
  have hperm := coveredB_perm (sortSpans spans) spans (sortSpans_perm spans) p
  cases hsort : sortSpans spans with
  | nil =>
    rw [hsort] at hperm
    simpa using hperm
  | cons first rest =>
    rw [hsort] at hstarts hperm
    rw [mergeAux_coveredB rest first p hstarts, ← coveredB_cons, hperm]

end MergeLemmas

/-- C2: for lists of half-open spans, the merger returns sorted maximal
unioned intervals: every output span is well formed, output spans are
pairwise separated by a gap (hence pairwise disjoint, strictly sorted and
never touching), and a position is covered by the output exactly when it
is covered by the input; the three concrete examples of the spec hold. -/
theorem C2_merge_correct :
    (∀ spans : List (Nat × Nat), (∀ sp ∈ spans, sp.1 ≤ sp.2) →
      (∀ sp ∈ mergeOverlaps spans, sp.1 ≤ sp.2)
      ∧ List.Pairwise (fun a b : Nat × Nat => a.2 < b.1) (mergeOverlaps spans)
      ∧ List.Pairwise (fun a b : Nat × Nat => a.1 < b.1) (mergeOverlaps spans)
      ∧ (∀ p, coveredB (mergeOverlaps spans) p = coveredB spans p))
    ∧ mergeOverlaps [(0, 3), (2, 5), (7, 9)] = [(0, 5), (7, 9)]
    ∧ mergeOverlaps ([] : List (Nat × Nat)) = []
    ∧ mergeOverlaps [(1, 2), (2, 4)] = [(1, 4)] := by
  refine ⟨?_, by decide, by decide, by decide⟩
  intro spans h
  have hwf := mergeOverlaps_wf spans h
  have hsep := chain'_sep_pairwise (mergeOverlaps spans) hwf
    (mergeOverlaps_chain spans)
  refine ⟨hwf, hsep, ?_, mergeOverlaps_coveredB spans⟩
  apply List.Pairwise.imp_of_mem _ hsep
  intro a b ha _hb hab
  have := hwf a ha
  omega

/-- Witness for C2: the merger applied to the first spec example preserves
coverage at position 4. -/
theorem C2_merge_correct_witness :
    coveredB (mergeOverlaps [(0, 3), (2, 5), (7, 9)]) 4
      = coveredB [(0, 3), (2, 5), (7, 9)] 4 :=
  (C2_merge_correct.1 [(0, 3), (2, 5), (7, 9)] (by decide)).2.2.2 4

/-- C9: the merger is order insensitive: permuting the input spans does not
change the output, because the input is sorted before the sweep. -/
theorem C9_merge_order_insensitive :
    ∀ l l' : List (Nat × Nat), l.Perm l' → mergeOverlaps l = mergeOverlaps l' := by
  intro l l' hp
  have hs : sortSpans l = sortSpans l' :=
    List.eq_of_perm_of_sorted
      ((sortSpans_perm l).trans (hp.trans (sortSpans_perm l').symm))
      (sortSpans_sorted l) (sortSpans_sorted l')
  unfold mergeOverlaps
  rw [hs]

/-- Witness for C9: a transposed concrete span list merges identically. -/
theorem C9_merge_order_insensitive_witness :
    mergeOverlaps [(2, 5), (0, 3), (7, 9)]
      = mergeOverlaps [(0, 3), (2, 5), (7, 9)] :=
  C9_merge_order_insensitive [(2, 5), (0, 3), (7, 9)]
    [(0, 3), (2, 5), (7, 9)] (by decide)

/-! ## Regex engine

The detection rules of `redac_rules.py` are compiled Python regexes used
through `finditer`, plus validators.  The patterns only use character
classes, concatenation, alternation (leftmost preferred) and greedy
counted repetition, so they are embedded as an abstract syntax tree with a
backtracking matcher implementing the Python preference order.  Python
class `\d` is modelled as the decimal digits `0`–`9` (every value the
rules handle is ASCII). -/

inductive RE where
  | eps : RE
  | cls (p : Char → Bool) : RE
  | seq (a b : RE) : RE
  | alt (a b : RE) : RE
  | rep (r : RE) (lo : Nat) (hi : Option Nat) : RE

/-- Decrement a repetition upper bound (`none` is unbounded). -/
def decOpt : Option Nat → Option Nat
  | none => none
  | some n => some (n - 1)

/-- Language of a regex: `REMatch r w` holds when `w` is in the language
of `r`.  A repetition `rep r lo hi` matches any concatenation of at least
`lo` and at most `hi` words of `r`. -/
inductive REMatch : RE → List Char → Prop where
  | eps : REMatch RE.eps []
  | cls {p : Char → Bool} {c : Char} : p c = true → REMatch (RE.cls p) [c]
  | seq {a b : RE} {u v : List Char} :
      REMatch a u → REMatch b v → REMatch (RE.seq a b) (u ++ v)
  | altL {a b : RE} {u : List Char} : REMatch a u → REMatch (RE.alt a b) u
  | altR {a b : RE} {u : List Char} : REMatch b u → REMatch (RE.alt a b) u
  | repZero {r : RE} {hi : Option Nat} : REMatch (RE.rep r 0 hi) []
  | repSucc {r : RE} {lo : Nat} {hi : Option Nat} {u v : List Char} :
      hi ≠ some 0 → REMatch r u → REMatch (RE.rep r (lo - 1) (decOpt hi)) v →
      REMatch (RE.rep r lo hi) (u ++ v)

/-- Backtracking matcher in continuation passing style with the Python
preference order: repetition is greedy (consume another iteration first,
fall back to the continuation), alternation tries the left branch first.
The guard `rest.length < cs.length` stops empty repetition iterations,
and `fuel` bounds the recursion depth. -/
def reRun : Nat → RE → List Char → (List Char → Option Nat) → Option Nat
  | 0, _, _, _ => none
  | _ + 1, RE.eps, cs, k => k cs
  | _ + 1, RE.cls _, [], _ => none
  | _ + 1, RE.cls p, c :: rest, k => if p c then k rest else none
  | fuel + 1, RE.seq a b, cs, k =>
    reRun fuel a cs (fun rest => reRun fuel b rest k)
  | fuel + 1, RE.alt a b, cs, k =>
    match reRun fuel a cs k with
    | some n => some n
    | none => reRun fuel b cs k
  | fuel + 1, RE.rep r1 lo hi, cs, k =>
    if 0 < lo then
      if hi = some 0 then none
      else
        reRun fuel r1 cs
          (fun rest => reRun fuel (RE.rep r1 (lo - 1) (decOpt hi)) rest k)
    else
      if hi = some 0 then k cs
      else
        match
          reRun fuel r1 cs
            (fun rest =>
              if rest.length < cs.length then
                reRun fuel (RE.rep r1 0 (decOpt hi)) rest k
              else none) with
        | some n => some n
        | none => k cs

/-- Attempt a match at the start of `cs`; returns the matched length under
the Python preference order. -/
def matchAt (fuel : Nat) (r : RE) (cs : List Char) : Option Nat :=
  reRun fuel r cs (fun rest => some (cs.length - rest.length))

/-- Scan loop of `finditer`: try to match at each position left to right;
a (non-empty) match is yielded and the scan resumes at its end, so matches
never overlap.  `gas` is one more than the remaining character count. -/
def scanAux (fuel : Nat) (r : RE) : Nat → Nat → List Char → List (Nat × Nat)
  | 0, _, _ => []
  | _ + 1, _, [] => []
  | gas + 1, pos, c :: rest =>
    match matchAt fuel r (c :: rest) with
    | some L =>
      if 1 ≤ L then
        (pos, pos + L) :: scanAux fuel r gas (pos + L) (List.drop L (c :: rest))
      else scanAux fuel r gas (pos + 1) rest
    | none => scanAux fuel r gas (pos + 1) rest

/-- Model of `re.finditer`: all non-overlapping matches, leftmost first,
as half-open spans.  The patterns of the registry never match the empty
string, so the zero-length branch of the scan is unreachable. -/
def finditer (r : RE) (cs : List Char) : List (Nat × Nat) :=
  scanAux (8 * cs.length + 64) r (cs.length + 1) 0 cs

/-- Anchored full match, as used by the email validator, whose regex is
the email pattern anchored with a leading caret and a trailing dollar
(none of the candidate strings contain a newline). -/
def reFullMatch (r : RE) (cs : List Char) : Bool :=
  (reRun (8 * cs.length + 64) r cs
    (fun rest => if rest.isEmpty then some cs.length else none)).isSome

section EngineSound

theorem reRun_sound :
    ∀ (fuel : Nat) (r : RE) (cs : List Char) (k : List Char → Option Nat)
      (n : Nat), reRun fuel r cs k = some n →
      ∃ u rest, cs = u ++ rest ∧ REMatch r u ∧ k rest = some n := by
  intro fuel
  induction fuel with
  | zero => intro r cs k n h; simp [reRun] at h
  | succ fuel ih =>
    intro r cs k n h
    cases r with
    | eps => exact ⟨[], cs, rfl, REMatch.eps, h⟩
    | cls p =>
      cases cs with
      | nil => simp [reRun] at h
      | cons c rest =>
        simp only [reRun] at h
        by_cases hp : p c
        · rw [if_pos hp] at h
          exact ⟨[c], rest, rfl, REMatch.cls hp, h⟩
        · rw [if_neg hp] at h
          simp at h
    | seq a b =>
      simp only [reRun] at h
      rcases ih a cs _ n h with ⟨u, rest, hcs, hu, hk⟩
      rcases ih b rest k n hk with ⟨v, rest2, hrest, hv, hk2⟩
      exact ⟨u ++ v, rest2, by rw [hcs, hrest, List.append_assoc],
        REMatch.seq hu hv, hk2⟩
    | alt a b =>
      simp only [reRun] at h
      rcases hcase : reRun fuel a cs k with _ | m
      · rw [hcase] at h
        rcases ih b cs k n h with ⟨u, rest, hcs, hu, hk⟩
        exact ⟨u, rest, hcs, REMatch.altR hu, hk⟩
      · rw [hcase] at h
        rcases ih a cs k m hcase with ⟨u, rest, hcs, hu, hk⟩
        cases h
        exact ⟨u, rest, hcs, REMatch.altL hu, hk⟩
    | rep r1 lo hi =>
      simp only [reRun] at h
      by_cases hlo : 0 < lo
      · rw [if_pos hlo] at h
        by_cases hhi : hi = some 0
        · rw [if_pos hhi] at h; simp at h
        · rw [if_neg hhi] at h
          rcases ih r1 cs _ n h with ⟨u, rest, hcs, hu, hk⟩
          rcases ih (RE.rep r1 (lo - 1) (decOpt hi)) rest k n hk with
            ⟨v, rest2, hrest, hv, hk2⟩
          exact ⟨u ++ v, rest2, by rw [hcs, hrest, List.append_assoc],
            REMatch.repSucc hhi hu hv, hk2⟩
      · rw [if_neg hlo] at h
        have hlo0 : lo = 0 := by omega
        subst hlo0
        by_cases hhi : hi = some 0
        · rw [if_pos hhi] at h
          exact ⟨[], cs, rfl, REMatch.repZero, h⟩
        · rw [if_neg hhi] at h
          rcases hcase : reRun fuel r1 cs
              (fun rest => if rest.length < cs.length then
                reRun fuel (RE.rep r1 0 (decOpt hi)) rest k else none) with
            _ | m
          · rw [hcase] at h
            exact ⟨[], cs, rfl, REMatch.repZero, h⟩
          · rw [hcase] at h
            rcases ih r1 cs _ m hcase with ⟨u, rest, hcs, hu, hk⟩
            by_cases hlen : rest.length < cs.length
            · rw [if_pos hlen] at hk
              rcases ih (RE.rep r1 0 (decOpt hi)) rest k m hk with
                ⟨v, rest2, hrest, hv, hk2⟩
              cases h
              exact ⟨u ++ v, rest2, by rw [hcs, hrest, List.append_assoc],
                REMatch.repSucc hhi hu hv, hk2⟩
            · rw [if_neg hlen] at hk
              simp at hk

theorem matchAt_sound (fuel : Nat) (r : RE) (cs : List Char) (L : Nat)
    (h : matchAt fuel r cs = some L) :
    ∃ u rest, cs = u ++ rest ∧ REMatch r u := by
  rcases reRun_sound fuel r cs _ L h with ⟨u, rest, hcs, hu, _⟩
  exact ⟨u, rest, hcs, hu⟩

/-- A regex property guaranteeing that every word of the language contains
a character satisfying `P`. -/
inductive Ensures (P : Char → Bool) : RE → Prop where
  | cls {p : Char → Bool} : (∀ c, p c = true → P c = true) →
      Ensures P (RE.cls p)
  | seqL {a b : RE} : Ensures P a → Ensures P (RE.seq a b)
  | seqR {a b : RE} : Ensures P b → Ensures P (RE.seq a b)
  | alt {a b : RE} : Ensures P a → Ensures P b → Ensures P (RE.alt a b)
  | rep {r : RE} {lo : Nat} {hi : Option Nat} : 1 ≤ lo → Ensures P r →
      Ensures P (RE.rep r lo hi)

theorem Ensures_match (P : Char → Bool) :
    ∀ {r : RE} {w : List Char}, REMatch r w → Ensures P r →
      ∃ c ∈ w, P c = true := by
  intro r w hm
  induction hm with
  | eps => intro hens; cases hens
  | cls hp =>
    intro hens
    cases hens with
    | cls hall => exact ⟨_, List.mem_singleton_self _, hall _ hp⟩
  | seq hma hmb iha ihb =>
    intro hens
    cases hens with
    | seqL ha =>
      rcases iha ha with ⟨c, hc, hPc⟩
      exact ⟨c, List.mem_append_left _ hc, hPc⟩
    | seqR hb =>
      rcases ihb hb with ⟨c, hc, hPc⟩
      exact ⟨c, List.mem_append_right _ hc, hPc⟩
  | altL hma iha =>
    intro hens
    cases hens with
    | alt ha hb => exact iha ha
  | altR hmb ihb =>
    intro hens
    cases hens with
    | alt ha hb => exact ihb hb
  | repZero =>
    intro hens
    cases hens with
    | rep hlo _ => omega
  | repSucc hne hmu hmv ihu ihv =>
    intro hens
    cases hens with
    | rep hlo hr =>
      rcases ihu hr with ⟨c, hc, hPc⟩
      exact ⟨c, List.mem_append_left _ hc, hPc⟩

theorem scanAux_nil (fuel : Nat) (r : RE) (A : Char → Bool)
    (hre : ∀ u, (∀ c ∈ u, A c = true) → REMatch r u → False) :
    ∀ (gas pos : Nat) (cs : List Char), (∀ c ∈ cs, A c = true) →
      scanAux fuel r gas pos cs = []
  | 0, _, _, _ => rfl
  | _ + 1, _, [], _ => rfl
  | gas + 1, pos, c :: rest, hA => by
    simp only [scanAux]
    rcases hm : matchAt fuel r (c :: rest) with _ | L
    · exact scanAux_nil fuel r A hre gas (pos + 1) rest
        (fun x hx => hA x (List.mem_cons_of_mem _ hx))
    · rcases matchAt_sound fuel r (c :: rest) L hm with ⟨u, rest2, hcs, hu⟩
      exact absurd hu
        (hre u (fun x hx => hA x (hcs ▸ List.mem_append_left _ hx)) |> fun h => h)

theorem finditer_nil (r : RE) (A : Char → Bool) (cs : List Char)
    (hre : ∀ u, (∀ c ∈ u, A c = true) → REMatch r u → False)
    (hA : ∀ c ∈ cs, A c = true) :
    finditer r cs = [] :=
  scanAux_nil (8 * cs.length + 64) r A hre (cs.length + 1) 0 cs hA

end EngineSound

/-! ## Character classes and the patterns of redac_rules.py -/

/-- ASCII decimal digit, the relevant fragment of the Python class `\d`. -/
def pyIsDigit (c : Char) : Bool := decide (48 ≤ c.toNat) && decide (c.toNat ≤ 57)

/-- ASCII letter, the class `[A-Za-z]`. -/
def asciiAlpha (c : Char) : Bool :=
  (decide (65 ≤ c.toNat) && decide (c.toNat ≤ 90))
    || (decide (97 ≤ c.toNat) && decide (c.toNat ≤ 122))

/-- Literal character. -/
def chC (c : Char) : RE := RE.cls (fun x => x == c)

/-- Character range such as `[1-9]`. -/
def rngC (a b : Char) : RE :=
  RE.cls (fun x => decide (a.toNat ≤ x.toNat) && decide (x.toNat ≤ b.toNat))

/-- Explicit character set such as `[016789]`. -/
def oneOfC (s : List Char) : RE := RE.cls (fun x => s.contains x)

def digitC : RE := RE.cls pyIsDigit

/-- Bounded repetition `{lo,hi}`. -/
def repB (r : RE) (lo hi : Nat) : RE := RE.rep r lo (some hi)

/-- Optional `?`. -/
def optC (r : RE) : RE := RE.rep r 0 (some 1)

/-- One or more `+`. -/
def plusC (r : RE) : RE := RE.rep r 1 none

def dashC : RE := chC '-'

/-- `RRN_RE = (?:\d{2}(?:0[1-9]|1[0-2])(?:0[1-9]|[12]\d|3[01]))-?\d{7}` -/
def RRN_RE : RE :=
  RE.seq (repB digitC 2 2)
    (RE.seq (RE.alt (RE.seq (chC '0') (rngC '1' '9'))
                    (RE.seq (chC '1') (rngC '0' '2')))
      (RE.seq (RE.alt (RE.seq (chC '0') (rngC '1' '9'))
                (RE.alt (RE.seq (oneOfC ['1', '2']) digitC)
                        (RE.seq (chC '3') (oneOfC ['0', '1']))))
        (RE.seq (optC dashC) (repB digitC 7 7))))

/-- `CARD_RE = (?:\d[ -]?){15,16}` -/
def CARD_RE : RE := repB (RE.seq digitC (optC (oneOfC [' ', '-']))) 15 16

/-- Class `[A-Za-z0-9._%+-]` of the email local part. -/
def emailLocalC : RE :=
  RE.cls (fun c => asciiAlpha c || pyIsDigit c || ['.', '_', '%', '+', '-'].contains c)

/-- Class `[A-Za-z0-9-]` of the email domain labels. -/
def emailDomC : RE :=
  RE.cls (fun c => asciiAlpha c || pyIsDigit c || c == '-')

def alphaC : RE := RE.cls asciiAlpha

/-- `EMAIL_RE = [A-Za-z0-9._%+-]+@(?:[A-Za-z0-9-]+\.)+[A-Za-z]{2,}` -/
def EMAIL_RE : RE :=
  RE.seq (plusC emailLocalC)
    (RE.seq (chC '@')
      (RE.seq (plusC (RE.seq (plusC emailDomC) (chC '.')))
        (RE.rep alphaC 2 none)))

/-- `MOBILE_RE = 01[016789]-?\d{3,4}-?\d{4}` -/
def MOBILE_RE : RE :=
  RE.seq (chC '0') (RE.seq (chC '1')
    (RE.seq (oneOfC ['0', '1', '6', '7', '8', '9'])
      (RE.seq (optC dashC) (RE.seq (repB digitC 3 4)
        (RE.seq (optC dashC) (repB digitC 4 4))))))

/-- `CITY_RE = (?:02|0(?:3[1-3]|4[1-4]|5[1-5]|6[1-4]))-?\d{3,4}-?\d{4}` -/
def CITY_RE : RE :=
  RE.seq
    (RE.alt (RE.seq (chC '0') (chC '2'))
      (RE.seq (chC '0')
        (RE.alt (RE.seq (chC '3') (rngC '1' '3'))
          (RE.alt (RE.seq (chC '4') (rngC '1' '4'))
            (RE.alt (RE.seq (chC '5') (rngC '1' '5'))
              (RE.seq (chC '6') (rngC '1' '4')))))))
    (RE.seq (optC dashC) (RE.seq (repB digitC 3 4)
      (RE.seq (optC dashC) (repB digitC 4 4))))

/-- `PASSPORT_RE = [A-Z]{1,2}\d{7,8}` -/
def PASSPORT_RE : RE := RE.seq (repB (rngC 'A' 'Z') 1 2) (repB digitC 7 8)

/-- `DRIVER_RE = \d{2}-\d{2}-\d{6}(?:-\d{2})?` -/
def DRIVER_RE : RE :=
  RE.seq (repB digitC 2 2) (RE.seq dashC (RE.seq (repB digitC 2 2)
    (RE.seq dashC (RE.seq (repB digitC 6 6)
      (optC (RE.seq dashC (repB digitC 2 2)))))))

/-! ## Validators of validators.py -/

/-- `_digits`: `re.sub(r"\D", "", s)` keeps only the decimal digits. -/
def digitsOnly (s : List Char) : List Char := s.filter pyIsDigit

/-- Numeric value of a two-digit substring. -/
def char2 (a b : Char) : Nat := (a.toNat - 48) * 10 + (b.toNat - 48)

/-- Numeric value of a digit string, as Python `int`. -/
def digitsToNat (l : List Char) : Nat :=
  l.foldl (fun a c => a * 10 + (c.toNat - 48)) 0

/-- `_luhn_ok` of validators.py: walk the reversed digits doubling every
second one, subtracting 9 from doubled values above 9. -/
def luhnSum : List Char → Bool → Nat
  | [], _ => 0
  | c :: rest, alt2 =>
    let n := c.toNat - 48
    let n2 := if alt2 then (if n * 2 > 9 then n * 2 - 9 else n * 2) else n
    n2 + luhnSum rest (!alt2)

def luhn_ok (d : List Char) : Bool := luhnSum d.reverse false % 10 == 0

/-- IIN prefix acceptance of `is_valid_card` (the 16-digit branch follows
the if/elif chain, the 15-digit branch requires an Amex prefix 34/37). -/
def cardIIN (d : List Char) : Bool :=
  if d.length = 16 then
    let prefix2 := digitsToNat (d.take 2)
    let prefix4 := digitsToNat (d.take 4)
    if d.headD ' ' == '4' then true
    else if d.headD ' ' == '5' && decide (51 ≤ prefix2) && decide (prefix2 ≤ 55) then true
    else if d.headD ' ' == '2' && decide (2221 ≤ prefix4) && decide (prefix4 ≤ 2720) then true
    else if d.headD ' ' == '6' then true
    else if d.headD ' ' == '9' then true
    else if prefix2 == 35 then true
    else false
  else
    d.take 2 == ['3', '4'] || d.take 2 == ['3', '7']

/-- `is_valid_card` of validators.py with the option dict replaced by its
two boolean flags (defaults are both true). -/
def is_valid_card (number : List Char) (luhn iin : Bool) : Bool :=
  let d := digitsOnly number
  if ¬(d.length = 15 ∨ d.length = 16) then false
  else if iin && !(cardIIN d) then false
  else if luhn && !(luhn_ok d) then false
  else true

/-- `is_valid_phone_mobile` of validators.py:
`d.startswith("010") and len(d) == 11`. -/
def is_valid_phone_mobile (number : List Char) : Bool :=
  let d := digitsOnly number
  d.take 3 == ['0', '1', '0'] && d.length == 11

/-- The set comprehension of `is_valid_phone_city`:
`{f"0{x}" for x in range(31, 65)}` — three-character strings, compared
against the two-character prefix `d[:2]`, so the test is always false. -/
def cityAreaSet : List (List Char) :=
  (List.range' 31 34).map (fun x => '0' :: Nat.toDigits 10 x)

/-- `is_valid_phone_city` of validators.py. -/
def is_valid_phone_city (number : List Char) : Bool :=
  let d := digitsOnly number
  if d.take 2 == ['0', '2'] && decide (9 ≤ d.length) && decide (d.length ≤ 10) then true
  else if cityAreaSet.contains (d.take 2)
      && decide (10 ≤ d.length) && decide (d.length ≤ 11) then true
  else false

/-- `is_valid_email` of validators.py: the email pattern anchored at both
ends and applied to the whole candidate. -/
def is_valid_email (s : List Char) : Bool := reFullMatch EMAIL_RE s

/-- Gregorian leap year, as Python datetime. -/
def isLeapYear (y : Nat) : Bool :=
  y % 4 == 0 && (!(y % 100 == 0) || y % 400 == 0)

def daysInMonth (y m : Nat) : Nat :=
  if m = 2 then (if isLeapYear y then 29 else 28)
  else if m = 4 ∨ m = 6 ∨ m = 9 ∨ m = 11 then 30
  else 31

/-- Calendar validity, as `datetime.strptime(..., "%Y%m%d")`. -/
def dateValid (y m d : Nat) : Bool :=
  decide (1 ≤ m) && decide (m ≤ 12) && decide (1 ≤ d)
    && decide (d ≤ daysInMonth y m)

/-- Strict lexicographic order on (year, month, day) triples; `dt >
datetime.today()` holds exactly when the parsed date is after the current
date (the parsed datetime carries time 00:00). -/
def tripleLt (a b : Nat × Nat × Nat) : Bool :=
  decide (a.1 < b.1)
    || (a.1 == b.1 && (decide (a.2.1 < b.2.1)
      || (a.2.1 == b.2.1 && decide (a.2.2 < b.2.2))))

/-- `is_valid_rrn_date_only` of validators.py, parameterized by the
current date `today`. -/
def is_valid_rrn_date_only (today : Nat × Nat × Nat) (rrn : List Char) : Bool :=
  let d := digitsOnly rrn
  if ¬(d.length = 13) then false
  else
    let g := d.getD 6 ' '
    let century := if g == '3' || g == '4' then 2000 else 1900
    let y := century + char2 (d.getD 0 ' ') (d.getD 1 ' ')
    let m := char2 (d.getD 2 ' ') (d.getD 3 ' ')
    let day := char2 (d.getD 4 ' ') (d.getD 5 ' ')
    if !(dateValid y m day) then false
    else if tripleLt today (y, m, day) then false
    else true

def rrnWeights : List Nat := [2, 3, 4, 5, 6, 7, 8, 9, 2, 3, 4, 5]

/-- `is_valid_rrn_checksum` of validators.py. -/
def is_valid_rrn_checksum (rrn : List Char) : Bool :=
  let d := digitsOnly rrn
  if ¬(d.length = 13) then false
  else
    let total := (((d.take 12).zip rrnWeights).map
      (fun p => (p.1.toNat - 48) * p.2)).sum
    let chk := (11 - total % 11) % 10
    chk == (d.getD 12 ' ').toNat - 48

/-- `is_valid_rrn` with `use_checksum = True`, as invoked from the RULES
registry with default options. -/
def is_valid_rrn (today : Nat × Nat × Nat) (rrn : List Char) : Bool :=
  is_valid_rrn_date_only today rrn && is_valid_rrn_checksum rrn

/-! ## Validators of validators_xml.py -/

/-- `_luhn_ok` of validators_xml.py: identical doubling rule expressed by
index parity over the reversed digits. -/
def luhnSumXml : List Char → Nat → Nat
  | [], _ => 0
  | c :: rest, i =>
    let n := c.toNat - 48
    let n2 := if i % 2 == 1 then (if n * 2 > 9 then n * 2 - 9 else n * 2) else n
    n2 + luhnSumXml rest (i + 1)

def luhn_ok_xml (d : List Char) : Bool := luhnSumXml d.reverse 0 % 10 == 0

/-- `is_valid_card` of validators_xml.py: accepts 13 to 19 digits with a
mandatory Luhn check and a loose prefix filter. -/
def is_valid_card_xml (s : List Char) : Bool :=
  let d := digitsOnly s
  if ¬(13 ≤ d.length ∧ d.length ≤ 19) then false
  else if !(luhn_ok_xml d) then false
  else if !(d.take 1 == ['4'] || d.take 1 == ['5'] || d.take 1 == ['2']
      || d.take 2 == ['3', '4'] || d.take 2 == ['3', '7']
      || d.take 4 == ['6', '0', '1', '1'] || d.take 2 == ['6', '5']
      || d.take 2 == ['6', '4'] || d.take 3 == ['6', '2', '2']) then false
  else true

/-- The anchored pattern `01[016789]\d{7,8}` of the xml mobile validator. -/
def MOBILE_FULL_RE : RE :=
  RE.seq (chC '0') (RE.seq (chC '1')
    (RE.seq (oneOfC ['0', '1', '6', '7', '8', '9']) (repB digitC 7 8)))

/-- `is_valid_phone_mobile` of validators_xml.py:
`re.fullmatch(r"01[016789]\d{7,8}", d)`. -/
def is_valid_phone_mobile_xml (s : List Char) : Bool :=
  reFullMatch MOBILE_FULL_RE (digitsOnly s)

/-! ## The match finder -/

/-- A detection rule: name, compiled regex, and a validator that may fail
(a Python validator may raise; the model returns `Except.error`). -/
structure FRule where
  rname : String
  regex : RE
  validator : List Char → Except String Bool

/-- Python slice `text[s:e]`, the matched substring handed to validators. -/
def sliceTxt (cs : List Char) (s e : Nat) : List Char :=
  (cs.drop s).take (e - s)

/-- Model of `_find_matches`: for every rule in registry order, every
`finditer` span whose candidate substring passes the validator is emitted;
a validator error or falsy result silently discards that one candidate
(the docx variant wraps the call in try/except, the pptx/hwpx/xlsx
variants coerce errors to False — both discard exactly the candidate). -/
def findMatchesF (rules : List FRule) (cs : List Char) :
    List (String × (Nat × Nat) × List Char) :=
  rules.flatMap (fun rule =>
    (finditer rule.regex cs).filterMap (fun sp =>
      let v := sliceTxt cs sp.1 sp.2
      match rule.validator v with
      | Except.ok true => some (rule.rname, sp, v)
      | _ => none))

/-- The RULES registry of redac_rules.py in dict insertion order, with the
option-dict defaults applied (`rrn_checksum = True`, card `luhn` and `iin`
both true); `today` parameterizes the date comparison inside the rrn
validator. -/
def RULES (today : Nat × Nat × Nat) : List FRule :=
  [⟨"rrn", RRN_RE, fun v => Except.ok (is_valid_rrn today v)⟩,
   ⟨"email", EMAIL_RE, fun v => Except.ok (is_valid_email v)⟩,
   ⟨"phone_mobile", MOBILE_RE, fun v => Except.ok (is_valid_phone_mobile v)⟩,
   ⟨"phone_city", CITY_RE, fun v => Except.ok (is_valid_phone_city v)⟩,
   ⟨"card", CARD_RE, fun v => Except.ok (is_valid_card v true true)⟩,
   ⟨"passport", PASSPORT_RE, fun _ => Except.ok true⟩,
   ⟨"driver_license", DRIVER_RE, fun _ => Except.ok true⟩]

/-- `_find_matches` over the concrete registry. -/
def findMatches (today : Nat × Nat × Nat) (cs : List Char) :
    List (String × (Nat × Nat) × List Char) :=
  findMatchesF (RULES today) cs

/-- One redaction pass over a single-fragment logical unit: find matches,
merge their spans, mask with `*`. -/
def redactText (today : Nat × Nat × Nat) (exempt : Char → Bool)
    (cs : List Char) : List Char :=
  let found := findMatches today cs
  let spans := mergeOverlaps (found.map (fun t => t.2.1))
  (applyReplacementsToNodes exempt [cs] spans ['*']).flatten

/-! ## Claims about detection and validators -/

section RuleClaims

/-- C5: the match finder keeps exactly the candidates whose validator
returns true; a validator that errors (raises) or returns falsy discards
only that candidate, every other confirmed match of that rule and of every
other rule is still returned, and no error propagates (the finder is a
total function). -/
theorem C5_validator_failure_isolated :
    ∀ (rules : List FRule) (cs : List Char) (nm : String) (sp : Nat × Nat)
      (v : List Char),
      (nm, sp, v) ∈ findMatchesF rules cs
        ↔ ∃ rule ∈ rules, rule.rname = nm ∧ sp ∈ finditer rule.regex cs
            ∧ v = sliceTxt cs sp.1 sp.2
            ∧ rule.validator v = Except.ok true := by
  intro rules cs nm sp v
  simp only [findMatchesF, List.mem_flatMap, List.mem_filterMap]
  constructor
  · rintro ⟨rule, hrule, sp', hsp', hmatch⟩
    rcases hval : rule.validator (sliceTxt cs sp'.1 sp'.2) with e | b
    · rw [hval] at hmatch
      simp at hmatch
    · cases b with
      | false =>
        rw [hval] at hmatch
        simp at hmatch
      | true =>
        rw [hval] at hmatch
        simp only [Option.some.injEq, Prod.mk.injEq] at hmatch
        obtain ⟨hnm, hsp, hv⟩ := hmatch
        subst hsp
        exact ⟨rule, hrule, hnm, hsp', hv.symm, hv ▸ hval⟩
  · rintro ⟨rule, hrule, rfl, hsp, rfl, hval⟩
    exact ⟨rule, hrule, sp, hsp, by simp [hval]⟩

end RuleClaims

/-- C6 counterexample: the validators_xml.py card validator accepts the
13-digit Luhn-valid Visa number 4000000000006, so the claim that the card
validator returns False whenever the digit count is not 15 or 16 fails on
that variant. -/
theorem C6_card_counterexample :
    is_valid_card_xml "4000000000006".toList = true
    ∧ (digitsOnly "4000000000006".toList).length = 13 := by decide

/-- C6 amended: the validators.py card validator normalizes to digits,
returns False whenever the digit count is not 15 or 16, and (with the Luhn
option enabled) requires the Luhn checksum; the validators_xml.py variant
instead accepts digit counts 13 through 19 and always requires the Luhn
checksum. -/
theorem C6_card_validator :
    (∀ (s : List Char) (luhn iin : Bool),
      ((digitsOnly s).length ≠ 15 ∧ (digitsOnly s).length ≠ 16 →
        is_valid_card s luhn iin = false)
      ∧ (is_valid_card s true iin = true → luhn_ok (digitsOnly s) = true))
    ∧ (∀ s : List Char,
      (((digitsOnly s).length < 13 ∨ 19 < (digitsOnly s).length) →
        is_valid_card_xml s = false)
      ∧ (is_valid_card_xml s = true → luhn_ok_xml (digitsOnly s) = true)) := by
  constructor
  · intro s luhn iin
    constructor
    · intro h
      simp only [is_valid_card]
      rw [if_pos (by tauto)]
    · intro h
      simp only [is_valid_card] at h
      split_ifs at h with h1 h2 h3
      · by_cases hl : luhn_ok (digitsOnly s)
        · exact hl
        · exfalso
          exact h3 (by simp [hl])
  · intro s
    constructor
    · intro h
      simp only [is_valid_card_xml]
      rw [if_pos (by omega)]
    · intro h
      simp only [is_valid_card_xml] at h
      split_ifs at h with h1 h2 h3
      · by_cases hl : luhn_ok_xml (digitsOnly s)
        · exact hl
        · exfalso
          exact h2 (by simp [hl])

/-- Witness for C6: a 4-digit input is rejected by both card validators. -/
theorem C6_card_validator_witness :
    is_valid_card "1234".toList true true = false
    ∧ is_valid_card_xml "1234".toList = false :=
  ⟨(C6_card_validator.1 "1234".toList true true).1 (by decide),
   (C6_card_validator.2 "1234".toList).1 (by decide)⟩

/-- C7 counterexample: the validators.py mobile validator rejects the
11-digit number 01112345678 although its digit normalization starts with
the mobile prefix 011, so the claim that all six prefixes 010/011/016/017/
018/019 are accepted fails on that variant. -/
theorem C7_mobile_counterexample :
    is_valid_phone_mobile "01112345678".toList = false
    ∧ (digitsOnly "01112345678".toList).take 3 = ['0', '1', '1']
    ∧ (digitsOnly "01112345678".toList).length = 11 := by decide

/-- C7 amended: the validators.py mobile validator accepts exactly the
strings whose digit normalization starts with 010 and has exactly 11
digits; the validators_xml.py variant also accepts the prefixes 011 and
016 through 019, with 10 or 11 digits. -/
theorem C7_mobile_validator :
    (∀ s : List Char,
      is_valid_phone_mobile s = true
        ↔ ((digitsOnly s).take 3 = ['0', '1', '0']
            ∧ (digitsOnly s).length = 11))
    ∧ is_valid_phone_mobile_xml "01612345678".toList = true
    ∧ is_valid_phone_mobile_xml "0111234567".toList = true
    ∧ is_valid_phone_mobile_xml "01012345678".toList = true
    ∧ is_valid_phone_mobile_xml "010123456".toList = false := by
  refine ⟨?_, by decide, by decide, by decide, by decide⟩
  intro s
  simp [is_valid_phone_mobile]

/-! ## C4: non-match of masked output -/

/-- The characters a fully masked region can contain: the mask character
and the exempt characters of the richest variant (all dashes of KEEP plus
Python white space; the pptx/xlsx hyphen-only exempt set is a subset). -/
def maskAlphabet (c : Char) : Bool := c == '*' || exemptDashWs c

theorem maskAlphabet_ranges (c : Char) (h : maskAlphabet c = true) :
    c.toNat = 42 ∨ c.toNat = 45
    ∨ (0x2010 ≤ c.toNat ∧ c.toNat ≤ 0x2015) ∨ c.toNat = 0x2212
    ∨ (9 ≤ c.toNat ∧ c.toNat ≤ 13) ∨ (28 ≤ c.toNat ∧ c.toNat ≤ 32)
    ∨ c.toNat = 0x85 ∨ c.toNat = 0xA0 ∨ c.toNat = 0x1680
    ∨ (0x2000 ≤ c.toNat ∧ c.toNat ≤ 0x200A) ∨ c.toNat = 0x2028
    ∨ c.toNat = 0x2029 ∨ c.toNat = 0x202F ∨ c.toNat = 0x205F
    ∨ c.toNat = 0x3000 := by
  simp only [maskAlphabet, exemptDashWs, Bool.or_eq_true, beq_iff_eq] at h
  rcases h with h | h | h
  · subst h; decide
  · have hmem : c ∈ keepDashes := by
      simpa using h
    fin_cases hmem <;> decide
  · simp only [pyIsSpace, Bool.or_eq_true, Bool.and_eq_true,
      decide_eq_true_eq, beq_iff_eq] at h
    omega

theorem maskAlphabet_not_digit (c : Char) (h : maskAlphabet c = true) :
    pyIsDigit c = false := by
  have hr := maskAlphabet_ranges c h
  cases hd : pyIsDigit c
  · rfl
  · exfalso
    simp only [pyIsDigit, Bool.and_eq_true, decide_eq_true_eq] at hd
    omega

theorem maskAlphabet_not_at (c : Char) (h : maskAlphabet c = true) :
    (c == '@') = false := by
  have hr := maskAlphabet_ranges c h
  cases hd : (c == '@')
  · rfl
  · exfalso
    have hc : c = '@' := by simpa using hd
    subst hc
    revert hr
    decide

theorem maskAlphabet_not_upper (c : Char) (h : maskAlphabet c = true) :
    (decide (('A').toNat ≤ c.toNat) && decide (c.toNat ≤ ('Z').toNat))
      = false := by
  have hr := maskAlphabet_ranges c h
  cases hd : (decide (('A').toNat ≤ c.toNat) && decide (c.toNat ≤ ('Z').toNat))
  · rfl
  · exfalso
    simp only [Bool.and_eq_true, decide_eq_true_eq] at hd
    have h65 : ('A').toNat = 65 := by decide
    have h90 : ('Z').toNat = 90 := by decide
    rw [h65] at hd
    rw [h90] at hd
    omega

theorem noMatch_of_ensures {P : Char → Bool} {r : RE}
    (hens : Ensures P r) (hexc : ∀ c, maskAlphabet c = true → P c = false) :
    ∀ u, (∀ c ∈ u, maskAlphabet c = true) → REMatch r u → False := by
  intro u hu hm
  rcases Ensures_match P hm hens with ⟨c, hc, hPc⟩
  have hfalse := hexc c (hu c hc)
  rw [hfalse] at hPc
  exact Bool.noConfusion hPc

theorem digitC_ensures : Ensures pyIsDigit digitC :=
  Ensures.cls (fun _ h => h)

theorem RRN_RE_ensures : Ensures pyIsDigit RRN_RE :=
  Ensures.seqL (Ensures.rep (by omega) digitC_ensures)

theorem CARD_RE_ensures : Ensures pyIsDigit CARD_RE :=
  Ensures.rep (by omega) (Ensures.seqL digitC_ensures)

theorem EMAIL_RE_ensures : Ensures (fun c => c == '@') EMAIL_RE :=
  Ensures.seqR (Ensures.seqL (Ensures.cls (fun _ h => h)))

theorem zeroC_ensures : Ensures pyIsDigit (chC '0') :=
  Ensures.cls (fun c h => by
    have hc : c = '0' := by simpa [chC] using h
    subst hc
    decide)

theorem MOBILE_RE_ensures : Ensures pyIsDigit MOBILE_RE :=
  Ensures.seqL zeroC_ensures

theorem CITY_RE_ensures : Ensures pyIsDigit CITY_RE :=
  Ensures.seqL (Ensures.alt (Ensures.seqL zeroC_ensures)
    (Ensures.seqL zeroC_ensures))

theorem PASSPORT_RE_ensures :
    Ensures (fun c => decide (('A').toNat ≤ c.toNat)
      && decide (c.toNat ≤ ('Z').toNat)) PASSPORT_RE :=
  Ensures.seqL (Ensures.rep (by omega) (Ensures.cls (fun _ h => h)))

theorem DRIVER_RE_ensures : Ensures pyIsDigit DRIVER_RE :=
  Ensures.seqL (Ensures.rep (by omega) digitC_ensures)

/-- C4 amended: the mask character and the exempt characters never
themselves satisfy any rule regex, so running the registry on a string
made only of the mask character and exempt characters finds zero matches.
(The original claim — zero matches on every masked output — fails because
masking can unblock a candidate among the surviving unmasked characters;
see the counterexample.) -/
theorem C4_masked_alphabet_no_matches :
    ∀ (today : Nat × Nat × Nat) (cs : List Char),
      (∀ c ∈ cs, maskAlphabet c = true) → findMatches today cs = [] := by
  intro today cs hA
  have h1 : finditer RRN_RE cs = [] :=
    finditer_nil _ maskAlphabet cs
      (noMatch_of_ensures RRN_RE_ensures maskAlphabet_not_digit) hA
  have h2 : finditer EMAIL_RE cs = [] :=
    finditer_nil _ maskAlphabet cs
      (noMatch_of_ensures EMAIL_RE_ensures maskAlphabet_not_at) hA
  have h3 : finditer MOBILE_RE cs = [] :=
    finditer_nil _ maskAlphabet cs
      (noMatch_of_ensures MOBILE_RE_ensures maskAlphabet_not_digit) hA
  have h4 : finditer CITY_RE cs = [] :=
    finditer_nil _ maskAlphabet cs
      (noMatch_of_ensures CITY_RE_ensures maskAlphabet_not_digit) hA
  have h5 : finditer CARD_RE cs = [] :=
    finditer_nil _ maskAlphabet cs
      (noMatch_of_ensures CARD_RE_ensures maskAlphabet_not_digit) hA
  have h6 : finditer PASSPORT_RE cs = [] :=
    finditer_nil _ maskAlphabet cs
      (noMatch_of_ensures PASSPORT_RE_ensures maskAlphabet_not_upper) hA
  have h7 : finditer DRIVER_RE cs = [] :=
    finditer_nil _ maskAlphabet cs
      (noMatch_of_ensures DRIVER_RE_ensures maskAlphabet_not_digit) hA
  simp [findMatches, findMatchesF, RULES, h1, h2, h3, h4, h5, h6, h7]

/-- Witness for the amended C4: a fully masked phone shape yields no
matches. -/
theorem C4_masked_alphabet_no_matches_witness :
    findMatches (2026, 10, 12) "***-****-****".toList = [] :=
  C4_masked_alphabet_no_matches (2026, 10, 12) "***-****-****".toList
    (by decide)

set_option maxRecDepth 100000 in
/-- C4 counterexample: on the 26-digit input below (an 010 mobile number
directly followed by a Luhn-valid Amex number) the first pass confirms
only the mobile match and masks positions 0 through 11; on the masked
output the card regex, no longer blocked by the greedy 16-digit candidate
that previously straddled the boundary and failed the IIN check, matches
the 15 surviving digits and the card validator confirms them.  Masking is
therefore not idempotent at the detection level. -/
theorem C4_redetection_counterexample :
    findMatches (2026, 10, 12) "01012345678340000000000009".toList
      = [("phone_mobile", (0, 11), "01012345678".toList)]
    ∧ redactText (2026, 10, 12) exemptHyphen
        "01012345678340000000000009".toList
      = "***********340000000000009".toList
    ∧ findMatches (2026, 10, 12)
        (redactText (2026, 10, 12) exemptHyphen
          "01012345678340000000000009".toList)
      = [("card", (11, 26), "340000000000009".toList)] := by
  refine ⟨by decide, by decide, by decide⟩
